import Mathlib

/-!
Verification development for the `finder` CSS-selector generator
(`src/index.ts`).  The program computes, for a target element in a live
document, a CSS selector string that matches exactly that element.

Shallow embedding conventions:

* The live document is modelled as a rooted tree of elements (`Elem`).
  Non-element DOM children are irrelevant to the algorithm: the source's
  `index` counts only `ELEMENT_NODE` siblings and CSS selectors match only
  elements, so the model keeps element children only.
* A node reference (`NodeRef`) is the list of child indices from the
  document root; reference identity of DOM nodes is equality of references.
* The mutable module-level `config` of the source is passed explicitly to
  every function, as sanctioned by the spec (section 9, which describes the
  shared slot as equivalent to explicit configuration passing).
* Exceptions (`throw new Error`) are modelled with `Except String`.
* The document's selector-match engine and the CSS identifier escaper are
  external collaborators (spec section 6); they are modelled here: each
  selector token additionally carries its structured form (`sel`, `nth`),
  built coherently with its rendered `name` by the very constructors the
  source uses, and the match engine interprets that structured form.
* `document.querySelectorAll` returns matches in document order, modelled
  as a preorder traversal.
* JS `Array.prototype.sort` with the comparator
  `(a, b) => penalty(a) - penalty(b)` is (since ES2019) a stable sort by
  ascending penalty; every stable sort under one total preorder computes
  the same list, so it is modelled with `List.insertionSort`.
-/

namespace Finder

/-- Structured form of one selector token, used by the modelled match
engine.  Modelled from the spec: the document's selector-matching engine is
an external collaborator (section 6); the tokens the program emits are
`#id`, `.class`, `[name="value"]`, `tag` and `*`. -/
inductive Frag where
  | idF (s : String)
  | classF (s : String)
  | attrF (n v : String)
  | tagF (s : String)
  | anyF
deriving DecidableEq, Repr

/-- The source's `Node` record: one candidate selector token.  `name`,
`penalty` and the optional `level` are the source's fields; `sel` and `nth`
carry the structured form of `name` for the modelled match engine (every
constructor below builds them coherently with `name`). -/
structure Node where
  name : String
  penalty : Nat
  level : Option Int := none
  sel : Frag
  nth : Option Nat := none
deriving DecidableEq, Repr

/-- The source's `Path`: an ordered sequence of tokens, index 0 = target. -/
abbrev Path := List Node

/-- The source's `enum Limit`: the three search-breadth policies. -/
inductive Limit where
  | all
  | two
  | one
deriving DecidableEq, Repr

/-- A document element: tag name, id, class list, attribute list, element
children. -/
inductive Elem where
  | mk (tag : String) (id : String) (classes : List String)
       (attrs : List (String × String)) (children : List Elem)

/-- Tag name of an element (the DOM `tagName`, before lowercasing). -/
def Elem.tag : Elem → String
  | .mk t _ _ _ _ => t

/-- The `id` attribute of an element (empty string when absent, as in the
DOM). -/
def Elem.id : Elem → String
  | .mk _ i _ _ _ => i

/-- The `classList` of an element. -/
def Elem.classes : Elem → List String
  | .mk _ _ c _ _ => c

/-- The attribute list of an element (name/value pairs). -/
def Elem.attrs : Elem → List (String × String)
  | .mk _ _ _ a _ => a

/-- The element children of an element, in document order. -/
def Elem.children : Elem → List Elem
  | .mk _ _ _ _ cs => cs

/-- A reference to a node in the document tree: the list of child indices
from the root.  Two distinct references denote distinct DOM nodes, so
reference identity (`===` in the source) is equality of references. -/
abbrev NodeRef := List Nat

/-- Dereference: the element denoted by a reference, if the reference is
valid in the given document. -/
def elemAt (doc : Elem) : NodeRef → Option Elem
  | [] => some doc
  | j :: r =>
    match doc.children.get? j with
    | some c => elemAt c r
    | none => none

/-- The DOM `parentElement`: drop the last index; the root has no parent. -/
def parentRef (r : NodeRef) : Option NodeRef :=
  match r with
  | [] => none
  | _ :: _ => some r.dropLast

mutual

/-- All references into the subtree of an element, in document order
(preorder: the element itself first, then its children left to right). -/
def subRefs : Elem → List NodeRef
  | .mk _ _ _ _ cs => [] :: subRefsAux cs 0

/-- References into a list of sibling subtrees, the first sibling carrying
index `j`. -/
def subRefsAux : List Elem → Nat → List NodeRef
  | [], _ => []
  | c :: cs, j => (subRefs c).map (fun r => j :: r) ++ subRefsAux cs (j + 1)

end

/-- Lowercasing of a string (`toLowerCase` in the source), written over the
character list so that it evaluates inside the kernel; extensionally this
is `String.toLower`. -/
def lowerStr (s : String) : String := ⟨s.data.map Char.toLower⟩

/-- Whether `s` starts with `p` (`String.prototype.startsWith` and the
anchored `data-` regular-expression test in the source), written over
character lists so that it evaluates inside the kernel; extensionally this
is `String.startsWith`. -/
def strStartsWith (s p : String) : Bool := s.data.take p.data.length == p.data

/-- Whether an element satisfies one structured selector token.  Modelled
from the spec: the match engine (external collaborator, section 6); tag
matching is case-insensitive as in HTML. -/
def matchFrag (e : Elem) : Frag → Bool
  | .idF s => e.id == s
  | .classF s => e.classes.contains s
  | .attrF n v => e.attrs.any (fun a => a.1 == n && a.2 == v)
  | .tagF s => lowerStr e.tag == s
  | .anyF => true

/-- Whether the node at `r` satisfies a `:nth-child(i)` qualifier: it is
the `i`-th element child of its parent (1-based).  The root has no parent
and is no `:nth-child`. -/
def matchNth (r : NodeRef) : Option Nat → Bool
  | none => true
  | some i =>
    match r.getLast? with
    | none => false
    | some j => j + 1 == i

/-- Whether the element at `r` satisfies one candidate token (structured
part plus optional nth qualifier). -/
def fragMatch (doc : Elem) (r : NodeRef) (n : Node) : Bool :=
  match elemAt doc r with
  | some e => matchFrag e n.sel && matchNth r n.nth
  | none => false

/-- Strict ancestors of a reference (all proper prefixes, nearest last). -/
def ancRefs (r : NodeRef) : List NodeRef :=
  (List.range r.length).map (fun k => r.take k)

/-- Whether the element at `r` is matched by the selector rendered from a
path (target token first).  Modelled from the spec: the match engine
(external collaborator, section 6).  The combinator joining two adjacent
tokens is the one the renderer (`selector`) emits: child (`>`) when the
outer token's recorded level is one more than the inner token's, descendant
(space) otherwise.  An empty path renders to the empty string, which
matches nothing (a browser raises a syntax error for it). -/
def matchChain (doc : Elem) : Path → NodeRef → Bool
  | [], _ => false
  | [f], r => fragMatch doc r f
  | f :: g :: rest, r =>
    fragMatch doc r f &&
      (let lvl : Int := g.level.getD 0
       if f.level == some (lvl - 1) then
         match parentRef r with
         | some p => matchChain doc (g :: rest) p
         | none => false
       else
         (ancRefs r).any (fun p => matchChain doc (g :: rest) p))

/-- The document's `querySelectorAll` for a rendered path: all matching
references in document order.  Modelled from the spec: the match engine
(external collaborator, section 6). -/
def queryAll (doc : Elem) (p : Path) : List NodeRef :=
  (subRefs doc).filter (fun r => matchChain doc p r)

/-- CSS identifier escaping (`cssesc(s, {isIdentifier: true})`).  Modelled
from the spec: escaping is an external collaborator (section 6) whose
contract is to turn a raw string into a selector token that the match
engine decodes back to the same raw string; it is modelled as the
identity. -/
def cssesc (s : String) : String := s

/-- The source's `id`: the `#id` token when the element's id is non-empty. -/
def id (input : Elem) : Option Node :=
  if input.id ≠ "" then
    some { name := "#" ++ cssesc input.id, penalty := 0, sel := .idF input.id }
  else
    none

/-- The resolved configuration, the source's `Options`. -/
structure Options where
  root : NodeRef
  className : String → Bool
  dataAttribute : String → Bool
  tagName : String → Bool
  seedMinLength : Nat
  optimizedMinLength : Nat
  threshold : Nat

/-- The source's `classNames`: one `.class` token per admitted class. -/
def classNames (config : Options) (input : Elem) : List Node :=
  (input.classes.filter config.className).map (fun name =>
    { name := "." ++ cssesc name, penalty := 1, sel := .classF name })

/-- The source's `dataAttributes`: one `[name="value"]` token per admitted
`data-` attribute. -/
def dataAttributes (config : Options) (input : Elem) : List Node :=
  (input.attrs.filter (fun a =>
      config.dataAttribute a.1 && strStartsWith a.1 "data-")).map
    (fun a =>
      { name := "[" ++ a.1 ++ "=\"" ++ a.2 ++ "\"]",
        penalty := 2, sel := .attrF a.1 a.2 })

/-- The source's `tagName`: the lowercase tag token when admitted. -/
def tagName (config : Options) (input : Elem) : Option Node :=
  let name := lowerStr input.tag
  if config.tagName name then
    some { name := name, penalty := 3, sel := .tagF name }
  else
    none

/-- The source's `any`: the wildcard token. -/
def any : Node :=
  { name := "*", penalty := 4, sel := .anyF }

/-- The source's `index`: the 1-based position of a node among the element
children of its parent, `none` at the root (no parent).  The source walks
the sibling chain counting `ELEMENT_NODE` siblings until it reaches the
input; in the model every child is an element, so the count is the node's
child index plus one. -/
def index (r : NodeRef) : Option Nat :=
  match r.getLast? with
  | none => none
  | some j => some (j + 1)

/-- The source's `nthChild`: derive a token by appending a
`:nth-child(i)` qualifier; the derived token carries no `level` (the
source builds a fresh object without one). -/
def nthChild (node : Node) (i : Nat) : Node :=
  { name := node.name ++ ":nth-child(" ++ toString i ++ ")",
    penalty := node.penalty + 1, sel := node.sel, nth := some i }

/-- The source's `dispensableNth`: a token may receive an nth qualifier
unless it is the literal `html` tag or an identifier token. -/
def dispensableNth (node : Node) : Bool :=
  node.name != "html" && !(strStartsWith node.name "#")

/-- The source's `maybe`: keep the non-null entries, `null` when none
remain. -/
def maybe (level : List (Option Node)) : Option (List Node) :=
  let list := level.filterMap (fun x => x)
  if list.length > 0 then some list else none

/-- The candidate tier chain of `bottomUpSearch` (source lines 75-79):
`maybe(id(current)) || maybe(...classNames(current)) ||
maybe(...dataAttributes(current)) || maybe(tagName(current)) || [any()]`
— a JS `||` chain takes the first non-null alternative. -/
def levelBase (config : Options) (current : Elem) : List Node :=
  match maybe [id current] with
  | some level => level
  | none =>
    match maybe ((classNames config current).map some) with
    | some level => level
    | none =>
      match maybe ((dataAttributes config current).map some) with
      | some level => level
      | none =>
        match maybe [tagName config current] with
        | some level => level
        | none => [any]

/-- The `Limit.All` level (source lines 83-86): the full tier, then the
nth-augmented forms of its dispensable tokens appended after it. -/
def levelAll (config : Options) (current : Elem) (r : NodeRef) : List Node :=
  let level := levelBase config current
  match index r with
  | some nth => level ++ (level.filter dispensableNth).map (fun node => nthChild node nth)
  | none => level

/-- The `Limit.Two` level (source lines 87-92): the single cheapest token,
then its nth-augmented form appended if dispensable. -/
def levelTwo (config : Options) (current : Elem) (r : NodeRef) : List Node :=
  let level := (levelBase config current).take 1
  match index r with
  | some nth => level ++ (level.filter dispensableNth).map (fun node => nthChild node nth)
  | none => level

/-- The `Limit.One` level (source lines 93-99): the single cheapest token,
replaced by its nth-augmented form when dispensable and a position
exists. -/
def levelOne (config : Options) (current : Elem) (r : NodeRef) : List Node :=
  match index r, (levelBase config current).take 1 with
  | some nth, [node] =>
    if dispensableNth node then [nthChild node nth] else [node]
  | _, l => l

/-- One level of the search stack for the node at `r` (source lines
75-103): the tier for the chosen policy, every token then tagged with its
ancestor depth `i`. -/
def levelFor (config : Options) (current : Elem) (r : NodeRef)
    (limit : Limit) (i : Nat) : List Node :=
  (match limit with
   | .all => levelAll config current r
   | .two => levelTwo config current r
   | .one => levelOne config current r).map
    (fun (node : Node) => { node with level := some (i : Int) })

/-- The source's `penalty`: total penalty of a path
(`path.map(node => node.penalty).reduce((acc, i) => acc + i, 0)`). -/
def penalty (path : Path) : Nat :=
  (path.map (fun node => node.penalty)).sum

/-- The source's `sort`: JS `Array.prototype.sort` with comparator
`(a, b) => penalty(a) - penalty(b)`, a stable ascending sort by penalty
(stability is guaranteed by ES2019; every stable sort under one total
preorder computes the same list, so it is modelled by insertion sort). -/
def sortPaths (paths : List Path) : List Path :=
  paths.insertionSort (fun a b => penalty a ≤ penalty b)

/-- Inner fold of the source's `selector`: `node` is the previous (inner)
token, `query` the string built so far. -/
def selectorGo (node : Node) : List Node → String → String
  | [], query => query
  | n :: rest, query =>
    let level : Int := n.level.getD 0
    if node.level == some (level - 1) then
      selectorGo n rest (n.name ++ " > " ++ query)
    else
      selectorGo n rest (n.name ++ " " ++ query)

/-- The source's `selector`: render a path (target token first) into a
selector string, choosing the child combinator for contiguous recorded
levels and the descendant combinator otherwise.  The source crashes on an
empty path (never produced); the model renders it as the empty string. -/
def selector (path : Path) : String :=
  match path with
  | [] => ""
  | node :: rest => selectorGo node rest node.name

/-- The source's `unique`: classify the document-wide match count of the
rendered path; zero matches is a thrown error, one is success, more is
ambiguity. -/
def unique (doc : Elem) (path : Path) : Except String Bool :=
  match (queryAll doc path).length with
  | 0 => .error ("Can't select any node with this selector: " ++ selector path)
  | 1 => .ok true
  | _ => .ok false

/-- The source's `same`: the first document-order match of the rendered
path is the original input (`document.querySelector(...) === input`). -/
def same (doc : Elem) (path : Path) (input : NodeRef) : Bool :=
  (queryAll doc path).head? == some input

/-- The source's `combinations`: all full-stack candidate paths, one token
per level, in generation order (lexicographic, the level-0 choice
outermost). -/
def combinations : List (List Node) → List Path
  | [] => [[]]
  | lvl :: rest => lvl.flatMap (fun node => (combinations rest).map (fun p => node :: p))

/-- The scan of `findUniquePath` over the sorted candidates: return the
first unique one; a thrown `unique` error propagates. -/
def firstUniqueE (doc : Elem) : List Path → Except String (Option Path)
  | [] => .ok none
  | candidate :: rest => do
    if (← unique doc candidate) then
      .ok (some candidate)
    else
      firstUniqueE doc rest

/-- The source's `findUniquePath`: sort the combinations of the stack; if
they outnumber the threshold delegate to the fallback (the next narrower
policy) or give up; otherwise return the first unique candidate. -/
def findUniquePath (doc : Elem) (config : Options) (stack : List (List Node))
    (fallback : Option (Unit → Except String (Option Path))) :
    Except String (Option Path) :=
  let paths := sortPaths (combinations stack)
  if paths.length > config.threshold then
    match fallback with
    | some f => f ()
    | none => .ok none
  else
    firstUniqueE doc paths

/-- Instrumented scan: the result of `firstUniqueE` paired with the number
of oracle queries (`unique` calls) it issues, a thrown query included. -/
def firstUniqueN (doc : Elem) : List Path → Except String (Option Path) × Nat
  | [] => (.ok none, 0)
  | candidate :: rest =>
    match unique doc candidate with
    | .error e => (.error e, 1)
    | .ok true => (.ok (some candidate), 1)
    | .ok false =>
      let (r, n) := firstUniqueN doc rest
      (r, n + 1)

/-- Instrumented `findUniquePath` for a single stack (no fallback): its
result paired with the number of oracle queries issued during the
combination-resolution step. -/
def findUniquePathN (doc : Elem) (config : Options) (stack : List (List Node)) :
    Except String (Option Path) × Nat :=
  let paths := sortPaths (combinations stack)
  if paths.length > config.threshold then
    (.ok none, 0)
  else
    firstUniqueN doc paths

/-- The successive values of `current` in the while loop of
`bottomUpSearch`: the input, its parent, ..., up to the tree root — after
which `current.parentElement` is null and the loop would stop.  Element
`k` of the chain is the ancestor at height `k`. -/
def ancChain (input : NodeRef) : List NodeRef :=
  (List.range (input.length + 1)).map (fun k => input.take (input.length - k))

/-- The while loop of the source's `bottomUpSearch` (lines 74-121): the
first argument holds the values `current` will take (the not-yet-visited
ancestor chain, exhaustion standing for the null parent of the tree
root), `i` is the ancestor depth of its head, `stack` the levels
accumulated so far.  The loop stops past the root boundary
(`current !== config.root.parentElement`) or past the tree top; each
visited node pushes its level and, once the stack reaches
`seedMinLength`, attempts a resolution, breaking on success; after the
loop one final resolution runs on the accumulated stack.  An invalid
reference (impossible for a live node) is a model-level error. -/
def buWalk (doc : Elem) (config : Options) (limit : Limit)
    (fallback : Option (Unit → Except String (Option Path))) :
    List NodeRef → Nat → List (List Node) → Except String (Option Path)
  | [], _, stack => findUniquePath doc config stack fallback
  | c :: rest, i, stack =>
    if some c == parentRef config.root then
      findUniquePath doc config stack fallback
    else
      match elemAt doc c with
      | none => .error "invalid node reference"
      | some current =>
        let level := levelFor config current c limit i
        let stack := stack ++ [level]
        if stack.length ≥ config.seedMinLength then
          findUniquePath doc config stack fallback >>= fun r =>
            match r with
            | some path => .ok (some path)
            | none => buWalk doc config limit fallback rest (i + 1) stack
        else
          buWalk doc config limit fallback rest (i + 1) stack

/-- The source's `bottomUpSearch`: walk ancestors outward from the input,
building the search stack for the chosen policy. -/
def bottomUpSearch (doc : Elem) (config : Options) (input : NodeRef)
    (limit : Limit) (fallback : Option (Unit → Except String (Option Path))) :
    Except String (Option Path) :=
  buWalk doc config limit fallback (ancChain input) 0 []

/-- Loop body of the source's `optimize` generator (lines 289-301) from
loop index `i` on: drop the `i`-th token; when the shorter path is still
unique and still selects the input, emit it, then everything its own
recursive optimization emits, then continue the loop. -/
def optimizeAux (doc : Elem) (config : Options) (input : NodeRef) :
    Path → Nat → Except String (List Path)
  | path, i =>
    if h : i < path.length - 1 then
      unique doc (path.eraseIdx i) >>= fun u =>
        if u && same doc (path.eraseIdx i) input then
          (if (path.eraseIdx i).length > 2 ∧
              (path.eraseIdx i).length > config.optimizedMinLength then
            optimizeAux doc config input (path.eraseIdx i) 1
          else
            .ok []) >>= fun sub =>
          optimizeAux doc config input path (i + 1) >>= fun rest =>
          .ok (path.eraseIdx i :: (sub ++ rest))
        else
          optimizeAux doc config input path (i + 1)
    else
      .ok []
termination_by path i => (path.length, path.length - i)
decreasing_by
  all_goals
    first
      | (apply Prod.Lex.right
         omega)
      | (apply Prod.Lex.left
         rw [List.length_eraseIdx_of_lt (by omega)]
         omega)

/-- The source's `optimize`: all shorter paths accepted across the whole
recursive interior-drop process, in emission order. -/
def optimize (doc : Elem) (config : Options) (input : NodeRef) (path : Path) :
    Except String (List Path) :=
  if path.length > 2 ∧ path.length > config.optimizedMinLength then
    optimizeAux doc config input path 1
  else
    .ok []

/-- Caller-supplied options: each field optional, merged onto the defaults
(`{...defaults, ...options}`). -/
structure PartOptions where
  root : Option NodeRef := none
  className : Option (String → Bool) := none
  dataAttribute : Option (String → Bool) := none
  tagName : Option (String → Bool) := none
  seedMinLength : Option Nat := none
  optimizedMinLength : Option Nat := none
  threshold : Option Nat := none

/-- The defaults of the entry point merged with the caller's options.  The
default root is `document.body`; the model identifies the document with its
root element, so the default boundary is the root reference `[]`. -/
def resolveOptions (options : PartOptions) : Options where
  root := options.root.getD []
  className := options.className.getD (fun _ => true)
  dataAttribute := options.dataAttribute.getD (fun _ => true)
  tagName := options.tagName.getD (fun _ => true)
  seedMinLength := options.seedMinLength.getD 1
  optimizedMinLength := options.optimizedMinLength.getD 2
  threshold := options.threshold.getD 1000

/-- The entry point (source lines 29-66) up to rendering: either the
early-returned tag string (for an `html` input) or the final path.  The
`nodeType` guard of the source cannot fire in the model (every modelled
node is an element); an invalid reference is a model-level error. -/
def generateCore (doc : Elem) (input : NodeRef) (options : PartOptions) :
    Except String (String ⊕ Path) :=
  match elemAt doc input with
  | none => .error "invalid node reference"
  | some e =>
    if lowerStr e.tag == "html" then
      .ok (.inl (lowerStr e.tag))
    else
      let config := resolveOptions options
      bottomUpSearch doc config input .all (some (fun _ =>
          bottomUpSearch doc config input .two (some (fun _ =>
            bottomUpSearch doc config input .one none)))) >>= fun found =>
        match found with
        | some path =>
          optimize doc config input path >>= fun accepted =>
            match sortPaths accepted with
            | best :: _ => .ok (.inr best)
            | [] => .ok (.inr path)
        | none => .error "Selector was not found."

/-- The entry point `generate`: the selector string for the input node. -/
def generate (doc : Elem) (input : NodeRef) (options : PartOptions) :
    Except String String :=
  (generateCore doc input options).map (fun r =>
    match r with
    | .inl s => s
    | .inr path => selector path)

/-! Spec-side definitions, used to compare the code's behaviour with the
spec's wording, and concrete documents used as witnesses and
counterexamples. -/

/-- The candidate tier chain as the spec words it (section 4.1): a strict
fallback chain stopping at the first non-empty tier — the escaped `#id` at
penalty 0; else one `.class` token per admitted class at penalty 1; else
one `[name="value"]` token per admitted `data-` attribute at penalty 2;
else the admitted lowercase tag at penalty 3; else the wildcard at
penalty 4. -/
def levelBaseSpec (config : Options) (e : Elem) : List Node :=
  if e.id ≠ "" then
    [{ name := "#" ++ cssesc e.id, penalty := 0, sel := .idF e.id }]
  else if e.classes.filter config.className ≠ [] then
    (e.classes.filter config.className).map (fun name =>
      { name := "." ++ cssesc name, penalty := 1, sel := .classF name })
  else if e.attrs.filter (fun a => strStartsWith a.1 "data-" && config.dataAttribute a.1) ≠ [] then
    (e.attrs.filter (fun a => strStartsWith a.1 "data-" && config.dataAttribute a.1)).map
      (fun a =>
        { name := "[" ++ a.1 ++ "=\"" ++ a.2 ++ "\"]",
          penalty := 2, sel := .attrF a.1 a.2 })
  else if config.tagName (lowerStr e.tag) then
    [{ name := lowerStr e.tag, penalty := 3, sel := .tagF (lowerStr e.tag) }]
  else
    [any]

/-- Child-combinator condition as the spec words it (section 4.5): the
outer token's recorded level is exactly one more than the inner token's
recorded level. -/
def childJoin (inner outer : Node) : Bool :=
  match inner.level, outer.level with
  | some a, some b => b == a + 1
  | _, _ => false

/-- The renderer fold as the spec words it: from index 0 outward, prepend
each token with `>` under `childJoin` and with a space otherwise. -/
def selectorSpecGo (node : Node) : List Node → String → String
  | [], query => query
  | n :: rest, query =>
    selectorSpecGo n rest
      (if childJoin node n then n.name ++ " > " ++ query else n.name ++ " " ++ query)

/-- The ancestor of a node at height `j` (`j = 0` is the node itself). -/
def anc (input : NodeRef) (j : Nat) : NodeRef :=
  input.take (input.length - j)

/-- Soundness of one search-stack level at depth `j`: every candidate
carries level `j` and matches the ancestor of the input at height `j`. -/
def LvlInv (doc : Elem) (input : NodeRef) (j : Nat) (lvl : List Node) : Prop :=
  ∀ n ∈ lvl, n.level = some (j : Int) ∧ fragMatch doc (anc input j) n = true

/-- Soundness of a search stack built by walking the input's ancestors. -/
def StackInv (doc : Elem) (input : NodeRef) (stack : List (List Node)) : Prop :=
  stack.length ≤ input.length + 1 ∧
    ∀ j lvl, stack.get? j = some lvl → LvlInv doc input j lvl

/-- Convenience constructor for example documents. -/
def mkE (tag : String) (id : String := "") (classes : List String := [])
    (attrs : List (String × String) := []) (children : List Elem := []) : Elem :=
  .mk tag id classes attrs children

/-- A document whose body contains two (invalid but DOM-constructible)
`html`-tagged elements. -/
def twoHtmlDoc : Elem := mkE "div" "" [] [] [mkE "html", mkE "html"]

/-- The structured token the string `"html"` denotes to the match engine:
a bare tag selector. -/
def htmlTagNode : Node := { name := "html", penalty := 3, sel := .tagF "html" }

/-- A document with two same-id siblings: no selector distinguishes them
(ids are never nth-augmented), yet every stack stays far under the
threshold, so the ALL policy fails without ever delegating to a narrower
policy. -/
def dupIdDoc : Elem := mkE "section" "" [] [] [mkE "div" "a", mkE "div" "a"]

/-- A document with a single identifiable target (`div > p#x`). -/
def exampleIdDoc : Elem := mkE "div" "" [] [] [mkE "p" "x"]

/-- A level-0 `p` tag token as the search builds it for `exampleIdDoc`'s
target. -/
def pTagNode : Node := { name := "p", penalty := 3, level := some 0, sel := .tagF "p" }

/-- Render-example token at level 0. -/
def renderP : Node := { name := "p", penalty := 3, level := some 0, sel := .tagF "p" }

/-- Render-example token at level 1 (contiguous with level 0). -/
def renderSection : Node :=
  { name := "section", penalty := 3, level := some 1, sel := .tagF "section" }

/-- Render-example token at level 3 (a gap left by minimization). -/
def renderDiv : Node := { name := "div", penalty := 3, level := some 3, sel := .tagF "div" }

/-! General-purpose lemmas about the embedding. -/

theorem ebind_ok {α β : Type} (a : α) (f : α → Except String β) :
    (Except.ok a >>= f) = f a := rfl

theorem ebind_error {α β : Type} (e : String) (f : α → Except String β) :
    ((Except.error e : Except String α) >>= f) = .error e := rfl

theorem filterMap_id_map_some (l : List Node) :
    (l.map some).filterMap (fun x => x) = l := by
  induction l with
  | nil => rfl
  | cons a t ih => simp [List.filterMap_cons, ih]

theorem maybe_map_some (l : List Node) :
    maybe (l.map some) = if l = [] then none else some l := by
  unfold maybe
  rw [filterMap_id_map_some]
  cases l <;> simp

theorem maybe_none : maybe [none] = none := rfl

theorem maybe_some (n : Node) : maybe [some n] = some [n] := rfl

/-! Claim C7: classification by the uniqueness oracle. -/

/-- Claim C7: the Uniqueness Oracle raises an error if and only if the
rendered selector matches zero nodes; it reports success exactly when the
match count is one; and a match count greater than one is reported as
non-unique without raising an error.  (Stated as a single closed-form
equation for `unique`, from which each of the three facets reads off.) -/
theorem c7_oracle_classification (doc : Elem) (path : Path) :
    unique doc path =
      if (queryAll doc path).length = 0 then
        .error ("Can't select any node with this selector: " ++ selector path)
      else
        .ok ((queryAll doc path).length == 1) := by
  unfold unique
  cases h : (queryAll doc path).length with
  | zero => simp
  | succ n => cases n <;> simp

/-! Claim C6: the combination budget. -/

theorem firstUniqueN_fst (doc : Elem) (l : List Path) :
    firstUniqueE doc l = (firstUniqueN doc l).1 := by
  induction l with
  | nil => rfl
  | cons c rest ih =>
    unfold firstUniqueE firstUniqueN
    cases h : unique doc c with
    | error e => rfl
    | ok b =>
      cases b
      · have h2 : (firstUniqueN doc rest).1 =
            (match firstUniqueN doc rest with | (r, n) => (r, n + 1)).1 := by
          rcases firstUniqueN doc rest with ⟨r, n⟩
          rfl
        exact ih.trans h2
      · rfl

theorem firstUniqueN_le (doc : Elem) (l : List Path) :
    (firstUniqueN doc l).2 ≤ l.length := by
  induction l with
  | nil => simp [firstUniqueN]
  | cons c rest ih =>
    unfold firstUniqueN
    cases h : unique doc c with
    | error e => simp
    | ok b =>
      cases b
      · rcases hn : firstUniqueN doc rest with ⟨r, n⟩
        rw [hn] at ih
        simpa using ih
      · simp

/-- Claim C6: if the number of combinations implied by the stack exceeds
the threshold, resolution issues no oracle query for that stack, and in
every case the number of oracle queries issued during the
combination-resolution step for one stack is at most the threshold.
(`findUniquePathN` instruments `findUniquePath` with its query count; the
first conjunct ties the two definitions together.) -/
theorem c6_budget (doc : Elem) (config : Options) (stack : List (List Node)) :
    findUniquePath doc config stack none = (findUniquePathN doc config stack).1
    ∧ (findUniquePathN doc config stack).2 ≤ config.threshold
    ∧ ((sortPaths (combinations stack)).length > config.threshold →
        (findUniquePathN doc config stack).2 = 0) := by
  unfold findUniquePath findUniquePathN
  by_cases h : (sortPaths (combinations stack)).length > config.threshold
  · simp [h]
  · refine ⟨by simp [h, firstUniqueN_fst], ?_, fun hc => absurd hc h⟩
    simp only [h, if_neg, if_false]
    exact le_trans (firstUniqueN_le doc _) (Nat.not_lt.mp h)

/-! Claim C2: policy escalation. -/

/-- Counterexample to claim C2 as stated: in `dupIdDoc` the ALL policy
fails entirely (every stack resolves to nothing), yet the search never
falls through to the fallback — a fallback that always yields a path is
never consulted and the run still returns no path, and `generate` reports
failure without the narrower policies having been needed for that
verdict. -/
theorem c2_counterexample :
    generate dupIdDoc [0] {} = .error "Selector was not found."
    ∧ bottomUpSearch dupIdDoc (resolveOptions {}) [0] .all
        (some (fun _ => .ok (some [any]))) = .ok none :=
  ⟨rfl, rfl⟩

/-- Claim C2 as amended: escalation to the narrower policy happens exactly
when a stack's combination count exceeds the threshold — resolution then
returns the fallback's result outright; within the threshold, resolution
is independent of the remaining policies (the fallback is never
consulted).  The ALL → TWO → ONE order itself is definitional in
`generateCore`. -/
theorem c2_escalation_threshold (doc : Elem) (config : Options)
    (stack : List (List Node)) (f : Unit → Except String (Option Path)) :
    ((sortPaths (combinations stack)).length > config.threshold →
        findUniquePath doc config stack (some f) = f ())
    ∧ ((sortPaths (combinations stack)).length ≤ config.threshold →
        ∀ g g', findUniquePath doc config stack g = findUniquePath doc config stack g') := by
  constructor
  · intro h
    unfold findUniquePath
    simp [h]
  · intro h g g'
    unfold findUniquePath
    simp [Nat.not_lt.mpr h]

/-- Witness for C2's amended theorem: with a threshold of zero, even the
seed stack over-budgets and resolution returns the fallback's result. -/
theorem c2_witness :
    findUniquePath exampleIdDoc (resolveOptions { threshold := some 0 }) []
      (some (fun _ => .ok (some [any]))) = .ok (some [any]) :=
  (c2_escalation_threshold exampleIdDoc (resolveOptions { threshold := some 0 }) []
      (fun _ => .ok (some [any]))).1 (by decide)

/-! Claim C10: the `html` shortcut. -/

/-- Claim C10: for an input whose tag name lowercases to `html`, `generate`
returns `"html"` immediately, for every document and every options value
(no configuration resolution, search, or oracle query can influence the
result), and the result is not checked for uniqueness or target
identity. -/
theorem c10_html_shortcut (doc : Elem) (input : NodeRef) (options : PartOptions)
    (e : Elem) (h1 : elemAt doc input = some e) (h2 : lowerStr e.tag = "html") :
    generate doc input options = .ok "html"
    ∧ generateCore doc input options = .ok (.inl "html") := by
  have hc : generateCore doc input options = .ok (.inl "html") := by
    unfold generateCore
    rw [h1]
    simp [h2]
  exact ⟨by unfold generate; rw [hc]; rfl, hc⟩

/-- Witness for C10 at a concrete document that even contains a second
`html`-tagged element (so the returned selector is in fact ambiguous and
uniqueness was demonstrably not checked). -/
theorem c10_witness :
    generate twoHtmlDoc [0] {} = .ok "html"
    ∧ generateCore twoHtmlDoc [0] {} = .ok (.inl "html") :=
  c10_html_shortcut twoHtmlDoc [0] {} (mkE "html") rfl rfl

/-! Claim C1: uniqueness and identity of the result. -/

/-- Counterexample to claim C1 as stated: on `twoHtmlDoc` the invocation
`generate twoHtmlDoc [0] {}` returns the selector string `"html"` without
throwing, yet that string (the bare tag token `htmlTagNode`, whose
rendering it is) matches two nodes of the document, not exactly one. -/
theorem c1_counterexample :
    generate twoHtmlDoc [0] {} = .ok "html"
    ∧ selector [htmlTagNode] = "html"
    ∧ (queryAll twoHtmlDoc [htmlTagNode]).length = 2 :=
  ⟨rfl, rfl, rfl⟩

/-! Claim C4: sibling-position augmentation. -/

/-- Claim C4: when the node has a 1-based sibling position, every
dispensable token of the tier also yields a derived token with
`:nth-child(position)` appended and penalty exactly one greater, the
augmented tokens are appended after the un-augmented ones, and
identifier-form tokens are never augmented. -/
theorem c4_nth_augmentation (config : Options) (e : Elem) (r : NodeRef) (nth : Nat)
    (h : index r = some nth) :
    levelAll config e r =
        levelBase config e ++
          ((levelBase config e).filter dispensableNth).map (fun f => nthChild f nth)
    ∧ (∀ f ∈ (levelBase config e).filter dispensableNth,
        (nthChild f nth).penalty = f.penalty + 1 ∧
          (nthChild f nth).name = f.name ++ ":nth-child(" ++ toString nth ++ ")")
    ∧ (∀ f ∈ levelBase config e, strStartsWith f.name "#" = true →
        f ∉ (levelBase config e).filter dispensableNth) := by
  refine ⟨by unfold levelAll; rw [h], fun f _ => ⟨rfl, rfl⟩, ?_⟩
  intro f _ hs hmem
  have hd := (List.mem_filter.mp hmem).2
  unfold dispensableNth at hd
  simp [hs] at hd

/-- Witness for C4: a plain `p` at child index 0 of its parent has sibling
position 2... (reference `[1]`, position 2). -/
theorem c4_witness :
    levelAll (resolveOptions {}) (mkE "p") [1] =
        levelBase (resolveOptions {}) (mkE "p") ++
          ((levelBase (resolveOptions {}) (mkE "p")).filter dispensableNth).map
            (fun f => nthChild f 2)
    ∧ (∀ f ∈ (levelBase (resolveOptions {}) (mkE "p")).filter dispensableNth,
        (nthChild f 2).penalty = f.penalty + 1 ∧
          (nthChild f 2).name = f.name ++ ":nth-child(" ++ toString 2 ++ ")")
    ∧ (∀ f ∈ levelBase (resolveOptions {}) (mkE "p"), strStartsWith f.name "#" = true →
        f ∉ (levelBase (resolveOptions {}) (mkE "p")).filter dispensableNth) :=
  c4_nth_augmentation (resolveOptions {}) (mkE "p") [1] 2 rfl

/-! Lemmas about the document tree and references. -/

theorem elemAt_append (doc : Elem) (a b : NodeRef) :
    elemAt doc (a ++ b) = (elemAt doc a).bind (fun e => elemAt e b) := by
  induction a generalizing doc with
  | nil => rfl
  | cons j r ih =>
    simp only [List.cons_append, elemAt]
    cases doc.children.get? j with
    | none => rfl
    | some c => exact ih c

theorem elemAt_anc_isSome (doc : Elem) (input : NodeRef)
    (h : (elemAt doc input).isSome) (j : Nat) :
    (elemAt doc (anc input j)).isSome := by
  unfold anc
  rw [show input = input.take (input.length - j) ++ input.drop (input.length - j) from
    (List.take_append_drop _ _).symm, elemAt_append] at h
  cases he : elemAt doc (input.take (input.length - j)) with
  | none => rw [he] at h; simp at h
  | some e2 => simp

theorem anc_zero (input : NodeRef) : anc input 0 = input := by
  simp [anc]

theorem anc_parent (input : NodeRef) (j : Nat) (h : j < input.length) :
    parentRef (anc input j) = some (anc input (j + 1)) := by
  have hne : input.take (input.length - j) ≠ [] := by
    simp only [ne_eq, List.take_eq_nil_iff]
    push_neg
    constructor
    · omega
    · intro hcon
      rw [hcon] at h
      simp at h
  obtain ⟨x, xs, hx⟩ := List.exists_cons_of_ne_nil hne
  unfold anc parentRef
  rw [hx]
  show some ((x :: xs).dropLast) = some (input.take (input.length - (j + 1)))
  rw [← hx]
  simp only [List.dropLast_eq_take, List.take_take, List.length_take]
  congr 2
  omega

theorem mem_subRefsAux (cs : List Elem) :
    ∀ (k j : Nat) (c : Elem), cs.get? j = some c →
      ∀ r ∈ subRefs c, (k + j) :: r ∈ subRefsAux cs k := by
  induction cs with
  | nil => intro k j c hj; simp at hj
  | cons c0 cs ih =>
    intro k j c hj r hr
    cases j with
    | zero =>
      simp only [List.get?_cons_zero, Option.some.injEq] at hj
      subst hj
      unfold subRefsAux
      exact List.mem_append_left _ (List.mem_map.mpr ⟨r, hr, by rw [Nat.add_zero]⟩)
    | succ j' =>
      unfold subRefsAux
      apply List.mem_append_right
      have hrec := ih (k + 1) j' c (by simpa using hj) r hr
      have heq : k + (j' + 1) = k + 1 + j' := by omega
      rw [heq]
      exact hrec

theorem mem_subRefs (r : NodeRef) :
    ∀ (doc e : Elem), elemAt doc r = some e → r ∈ subRefs doc := by
  induction r with
  | nil =>
    intro doc e _
    cases doc with
    | mk t i cl a cs => exact List.mem_cons_self _ _
  | cons j r' ih =>
    intro doc e h
    unfold elemAt at h
    cases hc : doc.children.get? j with
    | none => rw [hc] at h; cases h
    | some c =>
      rw [hc] at h
      have hr' := ih c e h
      cases doc with
      | mk t i cl a cs =>
        apply List.mem_cons_of_mem
        have := mem_subRefsAux cs 0 j c (by simpa using hc) r' hr'
        simpa using this

/-! Soundness of the candidate levels: every candidate token built for a
node matches that node. -/

/-- The candidate tier chain of the code equals the chain as the spec
words it. -/
theorem levelBase_eq_spec (config : Options) (e : Elem) :
    levelBase config e = levelBaseSpec config e := by
  have hda : e.attrs.filter (fun a => config.dataAttribute a.1 && strStartsWith a.1 "data-")
      = e.attrs.filter (fun a => strStartsWith a.1 "data-" && config.dataAttribute a.1) :=
    List.filter_congr (fun a _ => Bool.and_comm _ _)
  unfold levelBase levelBaseSpec
  by_cases h1 : e.id = ""
  · have hid : maybe [Finder.id e] = none := by
      simp [Finder.id, h1, maybe]
    rw [hid]
    by_cases h2 : e.classes.filter config.className = []
    · have hcn : maybe ((classNames config e).map some) = none := by
        rw [maybe_map_some]
        simp [classNames, h2]
      rw [hcn]
      by_cases h3 : e.attrs.filter
          (fun a => config.dataAttribute a.1 && strStartsWith a.1 "data-") = []
      · have hdn : maybe ((dataAttributes config e).map some) = none := by
          rw [maybe_map_some]
          simp [dataAttributes, h3]
        rw [hdn]
        rw [hda] at h3
        by_cases h4 : config.tagName (lowerStr e.tag) = true
        · have ht : maybe [tagName config e] =
              some [{ name := lowerStr e.tag, penalty := 3, sel := .tagF (lowerStr e.tag) }] := by
            simp [tagName, h4, maybe]
          rw [ht]
          simp [h1, h2, h3, h4]
        · have ht : maybe [tagName config e] = none := by
            simp [tagName, h4, maybe]
          rw [ht]
          simp [h1, h2, h3, h4]
      · have hdn : maybe ((dataAttributes config e).map some) =
            some (dataAttributes config e) := by
          rw [maybe_map_some]
          simp [dataAttributes, h3]
        rw [hdn]
        rw [hda] at h3
        simp [h1, h2, h3, dataAttributes, hda]
    · have hcn : maybe ((classNames config e).map some) = some (classNames config e) := by
        rw [maybe_map_some]
        simp [classNames, h2]
      rw [hcn]
      simp [h1, h2, classNames]
  · have hid : maybe [Finder.id e] =
        some [{ name := "#" ++ cssesc e.id, penalty := 0, sel := .idF e.id }] := by
      simp [Finder.id, h1, maybe]
    rw [hid]
    simp [h1]

theorem levelBase_sound (config : Options) (e : Elem) :
    ∀ n ∈ levelBase config e, n.nth = none ∧ matchFrag e n.sel = true := by
  rw [levelBase_eq_spec]
  unfold levelBaseSpec
  intro n hn
  split_ifs at hn with h1 h2 h3 h4
  · simp only [List.mem_singleton] at hn
    subst hn
    simp [matchFrag]
  · rcases List.mem_map.mp hn with ⟨name, hname, rfl⟩
    refine ⟨rfl, ?_⟩
    have hmem : name ∈ e.classes := (List.mem_filter.mp hname).1
    simpa [matchFrag] using List.elem_iff.mpr hmem
  · rcases List.mem_map.mp hn with ⟨a, ha, rfl⟩
    refine ⟨rfl, ?_⟩
    have hmem : a ∈ e.attrs := (List.mem_filter.mp ha).1
    simp only [matchFrag]
    exact List.any_eq_true.mpr ⟨a, hmem, by simp⟩
  · simp only [List.mem_singleton] at hn
    subst hn
    simp [matchFrag]
  · simp only [List.mem_singleton] at hn
    subst hn
    exact ⟨rfl, rfl⟩

theorem matchNth_of_index (r : NodeRef) (m : Nat) (h : index r = some m) :
    matchNth r (some m) = true := by
  unfold index at h
  cases hg : r.getLast? with
  | none => rw [hg] at h; cases h
  | some j =>
    rw [hg] at h
    cases h
    unfold matchNth
    rw [hg]
    simp

theorem fragMatch_tagged (doc : Elem) (e : Elem) (r : NodeRef)
    (hr : elemAt doc r = some e) (m : Node) (i : Int)
    (hsel : matchFrag e m.sel = true) (hnth : matchNth r m.nth = true) :
    fragMatch doc r { m with level := some i } = true := by
  unfold fragMatch
  rw [hr]
  show (matchFrag e m.sel && matchNth r m.nth) = true
  rw [hsel, hnth]
  rfl

theorem matchNth_none (r : NodeRef) : matchNth r none = true := rfl

theorem levelFor_sound (config : Options) (doc : Elem) (e : Elem) (r : NodeRef)
    (hr : elemAt doc r = some e) (limit : Limit) (i : Nat) :
    ∀ n ∈ levelFor config e r limit i,
      n.level = some (i : Int) ∧ fragMatch doc r n = true := by
  intro n hn
  unfold levelFor at hn
  rcases List.mem_map.mp hn with ⟨m, hm, rfl⟩
  refine ⟨rfl, ?_⟩
  have key : matchFrag e m.sel = true ∧ matchNth r m.nth = true := by
    cases limit with
    | all =>
      unfold levelAll at hm
      cases hidx : index r with
      | some nth =>
        rw [hidx] at hm
        rcases List.mem_append.mp hm with hbase | haug
        · have hb := levelBase_sound config e m hbase
          exact ⟨hb.2, by rw [hb.1]; exact matchNth_none r⟩
        · rcases List.mem_map.mp haug with ⟨b, hb, rfl⟩
          have hbb := levelBase_sound config e b (List.mem_filter.mp hb).1
          exact ⟨hbb.2, matchNth_of_index r nth hidx⟩
      | none =>
        rw [hidx] at hm
        have hb := levelBase_sound config e m hm
        exact ⟨hb.2, by rw [hb.1]; exact matchNth_none r⟩
    | two =>
      unfold levelTwo at hm
      cases hidx : index r with
      | some nth =>
        rw [hidx] at hm
        rcases List.mem_append.mp hm with hbase | haug
        · have hb := levelBase_sound config e m (List.take_subset 1 _ hbase)
          exact ⟨hb.2, by rw [hb.1]; exact matchNth_none r⟩
        · rcases List.mem_map.mp haug with ⟨b, hb, rfl⟩
          have hbb := levelBase_sound config e b
            (List.take_subset 1 _ (List.mem_filter.mp hb).1)
          exact ⟨hbb.2, matchNth_of_index r nth hidx⟩
      | none =>
        rw [hidx] at hm
        have hb := levelBase_sound config e m (List.take_subset 1 _ hm)
        exact ⟨hb.2, by rw [hb.1]; exact matchNth_none r⟩
    | one =>
      unfold levelOne at hm
      cases hidx : index r with
      | some nth =>
        rw [hidx] at hm
        cases htake : (levelBase config e).take 1 with
        | nil =>
          rw [htake] at hm
          dsimp only at hm
          simp at hm
        | cons b rest =>
          rw [htake] at hm
          cases rest with
          | cons b2 rest2 =>
            dsimp only at hm
            have hb := levelBase_sound config e m
              (List.take_subset 1 _ (by rw [htake]; exact hm))
            exact ⟨hb.2, by rw [hb.1]; exact matchNth_none r⟩
          | nil =>
            dsimp only at hm
            have hbmem : b ∈ levelBase config e :=
              List.take_subset 1 _ (by rw [htake]; exact List.mem_cons_self _ _)
            have hbb := levelBase_sound config e b hbmem
            by_cases hdisp : dispensableNth b = true
            · rw [if_pos hdisp] at hm
              simp only [List.mem_singleton] at hm
              subst hm
              exact ⟨hbb.2, matchNth_of_index r nth hidx⟩
            · rw [if_neg hdisp] at hm
              simp only [List.mem_singleton] at hm
              subst hm
              exact ⟨hbb.2, by rw [hbb.1]; exact matchNth_none r⟩
      | none =>
        rw [hidx] at hm
        dsimp only at hm
        have hb := levelBase_sound config e m (List.take_subset 1 _ hm)
        exact ⟨hb.2, by rw [hb.1]; exact matchNth_none r⟩
  exact fragMatch_tagged doc e r hr m (i : Int) key.1 key.2

/-! Soundness of full-stack combinations: every combination of a stack
built along the input's ancestor chain matches the input itself. -/

theorem combinations_forall₂ (stack : List (List Node)) :
    ∀ c ∈ combinations stack, List.Forall₂ (fun (n : Node) lvl => n ∈ lvl) c stack := by
  induction stack with
  | nil =>
    intro c hc
    simp only [combinations, List.mem_singleton] at hc
    subst hc
    exact List.Forall₂.nil
  | cons lvl rest ih =>
    intro c hc
    unfold combinations at hc
    rcases List.mem_flatMap.mp hc with ⟨n, hn, hc2⟩
    rcases List.mem_map.mp hc2 with ⟨c', hc', rfl⟩
    exact List.Forall₂.cons hn (ih c' hc')

theorem matchChain_anc (doc : Elem) (input : NodeRef) :
    ∀ (c : Path) (stackT : List (List Node)) (j : Nat),
      List.Forall₂ (fun n lvl => n ∈ lvl) c stackT →
      (∀ k lvl, stackT.get? k = some lvl → LvlInv doc input (j + k) lvl) →
      j + c.length ≤ input.length + 1 →
      c ≠ [] →
      matchChain doc c (anc input j) = true := by
  intro c
  induction c with
  | nil => intro _ _ _ _ _ hne; exact absurd rfl hne
  | cons f c' ih =>
    intro stackT j hf2 hinv hlen hne
    cases hf2 with
    | cons hmem htail =>
      rename_i lvl0 rT
      have hlv0 : LvlInv doc input j lvl0 := by
        have := hinv 0 lvl0 rfl
        simpa using this
      have hfprop := hlv0 f hmem
      cases c' with
      | nil => exact hfprop.2
      | cons g c'' =>
        cases htail with
        | cons hgmem htail2 =>
          rename_i lvl1 rT'
          have hlv1 : LvlInv doc input (j + 1) lvl1 := by
            have := hinv 1 lvl1 rfl
            simpa using this
          have hg := hlv1 g hgmem
          show matchChain doc (f :: g :: c'') (anc input j) = true
          unfold matchChain
          rw [hfprop.2, hg.1]
          simp only [Option.getD_some, Bool.true_and]
          have hcond : (f.level == some (((j + 1 : Nat) : Int) - 1)) = true := by
            rw [hfprop.1]
            simp only [beq_iff_eq, Option.some.injEq]
            push_cast
            ring
          simp only [hcond, if_true]
          have hjlt : j < input.length := by
            have := hlen
            simp only [List.length_cons] at this
            omega
          rw [anc_parent input j hjlt]
          apply ih (lvl1 :: rT') (j + 1) (List.Forall₂.cons hgmem htail2)
          · intro k lvl hk
            have := hinv (k + 1) lvl (by simpa using hk)
            have heq : j + (k + 1) = j + 1 + k := by omega
            rw [heq] at this
            exact this
          · simp only [List.length_cons] at hlen ⊢
            omega
          · simp

theorem unique_ok_count (doc : Elem) (p : Path)
    (h : unique doc p = .ok true) : (queryAll doc p).length = 1 := by
  unfold unique at h
  cases hl : (queryAll doc p).length with
  | zero => rw [hl] at h; cases h
  | succ n =>
    cases n with
    | zero => rfl
    | succ m => rw [hl] at h; simp at h

theorem firstUniqueE_some (doc : Elem) :
    ∀ (l : List Path) (p : Path), firstUniqueE doc l = .ok (some p) →
      p ∈ l ∧ unique doc p = .ok true := by
  intro l
  induction l with
  | nil => intro p h; simp [firstUniqueE] at h
  | cons c rest ih =>
    intro p h
    unfold firstUniqueE at h
    cases hu : unique doc c with
    | error e => rw [hu, ebind_error] at h; cases h
    | ok b =>
      rw [hu, ebind_ok] at h
      cases b
      · rw [if_neg (by simp)] at h
        obtain ⟨hmem, huniq⟩ := ih p h
        exact ⟨List.mem_cons_of_mem _ hmem, huniq⟩
      · rw [if_pos rfl] at h
        cases h
        exact ⟨List.mem_cons_self _ _, hu⟩

theorem findUniquePath_sound (doc : Elem) (config : Options) (input : NodeRef)
    (stack : List (List Node))
    (fallback : Option (Unit → Except String (Option Path)))
    (hin : input ∈ subRefs doc)
    (hfb : ∀ f, fallback = some f → ∀ p, f () = .ok (some p) →
      queryAll doc p = [input])
    (hstack : StackInv doc input stack)
    (p : Path)
    (hres : findUniquePath doc config stack fallback = .ok (some p)) :
    queryAll doc p = [input] := by
  unfold findUniquePath at hres
  by_cases hb : (sortPaths (combinations stack)).length > config.threshold
  · rw [if_pos hb] at hres
    cases hf : fallback with
    | some f =>
      rw [hf] at hres
      exact hfb f hf p hres
    | none =>
      rw [hf] at hres
      simp at hres
  · rw [if_neg hb] at hres
    obtain ⟨hmem, huniq⟩ := firstUniqueE_some doc _ p hres
    have hcomb : p ∈ combinations stack := (List.perm_insertionSort _ _).subset hmem
    have hf2 := combinations_forall₂ stack p hcomb
    have hlen := List.Forall₂.length_eq hf2
    have hcount := unique_ok_count doc p huniq
    have hne : p ≠ [] := by
      intro hp
      subst hp
      rw [show queryAll doc [] = [] by simp [queryAll, matchChain]] at hcount
      simp at hcount
    have hmc : matchChain doc p (anc input 0) = true := by
      apply matchChain_anc doc input p stack 0 hf2
      · intro k lvl hk
        have := hstack.2 k lvl hk
        simpa using this
      · have := hstack.1
        omega
      · exact hne
    rw [anc_zero] at hmc
    have hmemq : input ∈ queryAll doc p := List.mem_filter.mpr ⟨hin, hmc⟩
    rcases List.length_eq_one.mp hcount with ⟨a, ha⟩
    rw [ha] at hmemq ⊢
    simp only [List.mem_singleton] at hmemq
    rw [hmemq]

theorem buWalk_sound (doc : Elem) (config : Options) (limit : Limit)
    (input : NodeRef) (hin : input ∈ subRefs doc)
    (hval : (elemAt doc input).isSome)
    (fallback : Option (Unit → Except String (Option Path)))
    (hfb : ∀ f, fallback = some f → ∀ p, f () = .ok (some p) →
      queryAll doc p = [input]) :
    ∀ (rem : List NodeRef) (i : Nat) (stack : List (List Node)),
      rem = (List.range (input.length + 1 - i)).map (fun k => anc input (i + k)) →
      i = stack.length →
      StackInv doc input stack →
      ∀ p, buWalk doc config limit fallback rem i stack = .ok (some p) →
        queryAll doc p = [input] := by
  intro rem
  induction rem with
  | nil =>
    intro i stack _ _ hstack p hres
    unfold buWalk at hres
    exact findUniquePath_sound doc config input stack fallback hin hfb hstack p hres
  | cons c rest ih =>
    intro i stack hrem hi hstack p hres
    have hne : input.length + 1 - i ≠ 0 := by
      intro h0
      rw [h0] at hrem
      simp at hrem
    have hiL : i ≤ input.length := by omega
    have hrem2 : c :: rest =
        anc input (i + 0) ::
          (List.range (input.length - i)).map
            ((fun k => anc input (i + k)) ∘ Nat.succ) := by
      rw [hrem, show input.length + 1 - i = (input.length - i) + 1 by omega,
        List.range_succ_eq_map]
      simp [List.map_map]
    have hc : c = anc input i := by
      have := (List.cons.injEq _ _ _ _).mp hrem2
      simpa using this.1
    have hrest : rest =
        (List.range (input.length + 1 - (i + 1))).map
          (fun k => anc input (i + 1 + k)) := by
      have := (List.cons.injEq _ _ _ _).mp hrem2
      rw [this.2, show input.length + 1 - (i + 1) = input.length - i by omega]
      apply List.map_congr_left
      intro k _
      show anc input (i + (k + 1)) = anc input (i + 1 + k)
      congr 1
      omega
    unfold buWalk at hres
    by_cases hbd : (some c == parentRef config.root) = true
    · rw [if_pos hbd] at hres
      exact findUniquePath_sound doc config input stack fallback hin hfb hstack p hres
    · rw [if_neg hbd] at hres
      have hcval : (elemAt doc c).isSome := by
        rw [hc]
        exact elemAt_anc_isSome doc input hval i
      obtain ⟨ec, hec⟩ := Option.isSome_iff_exists.mp hcval
      rw [hec] at hres
      dsimp only at hres
      have hstack' : StackInv doc input (stack ++ [levelFor config ec c limit i]) := by
        constructor
        · simp only [List.length_append, List.length_singleton]
          have := hstack.1
          omega
        · intro j lvl hj
          rcases Nat.lt_trichotomy j stack.length with hlt | heq | hgt
          · rw [List.get?_append hlt] at hj
            exact hstack.2 j lvl hj
          · subst heq
            rw [List.get?_concat_length] at hj
            cases hj
            rw [← hi]
            intro n hn
            have hsound := levelFor_sound config doc ec c hec limit i n hn
            rw [hc] at hsound
            exact hsound
          · rw [List.get?_eq_none.mpr (by simp; omega)] at hj
            cases hj
      by_cases hseed :
          (stack ++ [levelFor config ec c limit i]).length ≥ config.seedMinLength
      · rw [if_pos hseed] at hres
        cases hfu : findUniquePath doc config
            (stack ++ [levelFor config ec c limit i]) fallback with
        | error err => rw [hfu, ebind_error] at hres; cases hres
        | ok rr =>
          rw [hfu, ebind_ok] at hres
          cases rr with
          | some path2 =>
            dsimp only at hres
            cases hres
            exact findUniquePath_sound doc config input _ fallback hin hfb hstack' p hfu
          | none =>
            dsimp only at hres
            exact ih (i + 1) (stack ++ [levelFor config ec c limit i]) hrest
              (by simp [hi]) hstack' p hres
      · rw [if_neg hseed] at hres
        exact ih (i + 1) (stack ++ [levelFor config ec c limit i]) hrest
          (by simp [hi]) hstack' p hres

theorem bottomUpSearch_sound (doc : Elem) (config : Options) (limit : Limit)
    (input : NodeRef) (hin : input ∈ subRefs doc)
    (hval : (elemAt doc input).isSome)
    (fallback : Option (Unit → Except String (Option Path)))
    (hfb : ∀ f, fallback = some f → ∀ p, f () = .ok (some p) →
      queryAll doc p = [input])
    (p : Path)
    (h : bottomUpSearch doc config input limit fallback = .ok (some p)) :
    queryAll doc p = [input] := by
  apply buWalk_sound doc config limit input hin hval fallback hfb
    (ancChain input) 0 [] ?_ rfl ?_ p h
  · unfold ancChain
    simp only [Nat.sub_zero]
    apply List.map_congr_left
    intro k _
    show anc input k = anc input (0 + k)
    congr 1
    omega
  · exact ⟨by simp, fun j lvl hj => by simp at hj⟩

/-! Claim C9: minimizer monotonicity. -/

/-- Every path the interior-drop process emits was accepted by the oracle
(`unique` returned true and `same` held when it was emitted) and has total
penalty at most the penalty of the path the process started from. -/
theorem optimizeAux_spec (doc : Elem) (config : Options) (input : NodeRef) :
    ∀ (N : Nat) (path : Path), path.length ≤ N →
    ∀ (d i : Nat), path.length - i ≤ d →
    ∀ l, optimizeAux doc config input path i = .ok l →
    ∀ q ∈ l, unique doc q = .ok true ∧ same doc q input = true ∧
      penalty q ≤ penalty path := by
  intro N
  induction N with
  | zero =>
    intro path hN d i hd l hok q hq
    rw [optimizeAux] at hok
    rw [dif_neg (by omega)] at hok
    cases hok
    simp at hq
  | succ N ihN =>
    intro path hN d
    induction d with
    | zero =>
      intro i hd l hok q hq
      rw [optimizeAux] at hok
      rw [dif_neg (by omega)] at hok
      cases hok
      simp at hq
    | succ d ihd =>
      intro i hd l hok q hq
      rw [optimizeAux] at hok
      by_cases h : i < path.length - 1
      · rw [dif_pos h] at hok
        cases hu : unique doc (path.eraseIdx i) with
        | error e => rw [hu, ebind_error] at hok; cases hok
        | ok u =>
          rw [hu, ebind_ok] at hok
          by_cases hacc : (u && same doc (path.eraseIdx i) input) = true
          · rw [if_pos hacc] at hok
            cases hs : (if (path.eraseIdx i).length > 2 ∧
                  (path.eraseIdx i).length > config.optimizedMinLength then
                optimizeAux doc config input (path.eraseIdx i) 1
              else
                .ok []) with
            | error e => rw [hs, ebind_error] at hok; cases hok
            | ok sub =>
              rw [hs, ebind_ok] at hok
              cases hr : optimizeAux doc config input path (i + 1) with
              | error e => rw [hr, ebind_error] at hok; cases hok
              | ok rest =>
                rw [hr, ebind_ok] at hok
                cases hok
                have hplen : (path.eraseIdx i).length = path.length - 1 :=
                  List.length_eraseIdx_of_lt (by omega)
                have hpen : penalty (path.eraseIdx i) ≤ penalty path := by
                  unfold penalty
                  exact List.Sublist.sum_le_sum
                    ((List.eraseIdx_sublist path i).map _) (fun a _ => Nat.zero_le a)
                rcases List.mem_cons.mp hq with rfl | hq2
                · have hacc' : u = true ∧ same doc (path.eraseIdx i) input = true := by
                    simpa using hacc
                  exact ⟨by rw [hu, hacc'.1], hacc'.2, hpen⟩
                · rcases List.mem_append.mp hq2 with hqs | hqr
                  · by_cases hcond : (path.eraseIdx i).length > 2 ∧
                        (path.eraseIdx i).length > config.optimizedMinLength
                    · rw [if_pos hcond] at hs
                      have hrec := ihN (path.eraseIdx i) (by omega)
                        (path.eraseIdx i).length 1 (by omega) sub hs q hqs
                      exact ⟨hrec.1, hrec.2.1, le_trans hrec.2.2 hpen⟩
                    · rw [if_neg hcond] at hs
                      cases hs
                      simp at hqs
                  · exact ihd (i + 1) (by omega) rest hr q hqr
          · rw [if_neg hacc] at hok
            exact ihd (i + 1) (by omega) l hok q hq
      · rw [dif_neg h] at hok
        cases hok
        simp at hq

/-- Claim C9: the path finally selected after minimization — the cheapest
sorted survivor, or the original path when nothing was accepted — never
has higher total penalty than the path the Minimizer was given. -/
theorem c9_minimizer_monotone (doc : Elem) (config : Options) (input : NodeRef)
    (path : Path) (l : List Path)
    (h : optimize doc config input path = .ok l) :
    penalty ((sortPaths l).headD path) ≤ penalty path := by
  cases hs : sortPaths l with
  | nil => simp
  | cons best rest =>
    simp only [List.headD_cons]
    have hb : best ∈ l := by
      have hmem : best ∈ sortPaths l := by
        rw [hs]
        exact List.mem_cons_self _ _
      exact (List.perm_insertionSort _ l).subset hmem
    unfold optimize at h
    by_cases hc : path.length > 2 ∧ path.length > config.optimizedMinLength
    · rw [if_pos hc] at h
      exact (optimizeAux_spec doc config input path.length path le_rfl
        path.length 1 (by omega) l h best hb).2.2
    · rw [if_neg hc] at h
      cases h
      simp at hb

/-- Witness for C9: a one-token path is below the minimization threshold,
so nothing is emitted and the original path stands, at equal penalty. -/
theorem c9_witness :
    penalty ((sortPaths []).headD [pTagNode]) ≤ penalty [pTagNode] :=
  c9_minimizer_monotone exampleIdDoc (resolveOptions {}) [0] [pTagNode] [] rfl

/-! Claim C1: uniqueness and identity of the final result. -/

theorem optimize_sound (doc : Elem) (config : Options) (input : NodeRef)
    (path : Path) (l : List Path)
    (h : optimize doc config input path = .ok l) :
    ∀ q ∈ l, queryAll doc q = [input] := by
  intro q hq
  unfold optimize at h
  by_cases hc : path.length > 2 ∧ path.length > config.optimizedMinLength
  · rw [if_pos hc] at h
    have hs := optimizeAux_spec doc config input path.length path le_rfl
      path.length 1 (by omega) l h q hq
    have hcount := unique_ok_count doc q hs.1
    have hsame : (queryAll doc q).head? = some input := by
      have hb := hs.2.1
      unfold same at hb
      exact eq_of_beq hb
    rcases List.length_eq_one.mp hcount with ⟨a, ha⟩
    rw [ha] at hsame ⊢
    simp only [List.head?_cons, Option.some.injEq] at hsame
    rw [hsame]
  · rw [if_neg hc] at h
    cases h
    simp at hq

/-- Claim C1 as amended: for every invocation of `generate` whose target's
tag name does not lowercase to `html` and that returns a selector string
without throwing, the returned string renders the final path, and querying
the document with that path yields exactly the one original target node
(reference identity).  (The un-amended claim fails only on the `html`
shortcut, see the counterexample.) -/
theorem c1_uniqueness_identity (doc : Elem) (input : NodeRef)
    (options : PartOptions) (e : Elem)
    (h1 : elemAt doc input = some e) (h2 : lowerStr e.tag ≠ "html")
    (s : String) (h3 : generate doc input options = .ok s) :
    ∃ p : Path, generateCore doc input options = .ok (.inr p) ∧
      s = selector p ∧ queryAll doc p = [input] := by
  have hin : input ∈ subRefs doc := mem_subRefs input doc e h1
  have hval : (elemAt doc input).isSome := by rw [h1]; rfl
  unfold generate at h3
  cases hcore : generateCore doc input options with
  | error err => rw [hcore] at h3; cases h3
  | ok r =>
    rw [hcore] at h3
    simp only [Except.map, Except.ok.injEq] at h3
    unfold generateCore at hcore
    rw [h1] at hcore
    dsimp only at hcore
    rw [if_neg (by simpa using h2)] at hcore
    set config := resolveOptions options with hcfg
    have hfbNone : ∀ f : Unit → Except String (Option Path),
        (none : Option (Unit → Except String (Option Path))) = some f →
        ∀ p, f () = .ok (some p) → queryAll doc p = [input] := by
      intro f hf
      cases hf
    have hOne : ∀ p, bottomUpSearch doc config input .one none = .ok (some p) →
        queryAll doc p = [input] := fun p hp =>
      bottomUpSearch_sound doc config .one input hin hval none hfbNone p hp
    have hfbTwo : ∀ f,
        (some (fun _ => bottomUpSearch doc config input .one none) :
          Option (Unit → Except String (Option Path))) = some f →
        ∀ p, f () = .ok (some p) → queryAll doc p = [input] := by
      intro f hf p hp
      cases hf
      exact hOne p hp
    have hTwo : ∀ p, bottomUpSearch doc config input .two
        (some (fun _ => bottomUpSearch doc config input .one none)) = .ok (some p) →
        queryAll doc p = [input] := fun p hp =>
      bottomUpSearch_sound doc config .two input hin hval _ hfbTwo p hp
    have hfbAll : ∀ f,
        (some (fun _ => bottomUpSearch doc config input .two
          (some (fun _ => bottomUpSearch doc config input .one none))) :
          Option (Unit → Except String (Option Path))) = some f →
        ∀ p, f () = .ok (some p) → queryAll doc p = [input] := by
      intro f hf p hp
      cases hf
      exact hTwo p hp
    cases hbu : bottomUpSearch doc config input .all (some (fun _ =>
        bottomUpSearch doc config input .two (some (fun _ =>
          bottomUpSearch doc config input .one none)))) with
    | error err2 => rw [hbu, ebind_error] at hcore; cases hcore
    | ok found =>
      rw [hbu, ebind_ok] at hcore
      cases found with
      | none =>
        dsimp only at hcore
        cases hcore
      | some path =>
        dsimp only at hcore
        have hpath : queryAll doc path = [input] :=
          bottomUpSearch_sound doc config .all input hin hval _ hfbAll path hbu
        cases hopt : optimize doc config input path with
        | error e3 => rw [hopt, ebind_error] at hcore; cases hcore
        | ok accepted =>
          rw [hopt, ebind_ok] at hcore
          cases hsort : sortPaths accepted with
          | nil =>
            rw [hsort] at hcore
            dsimp only at hcore
            cases hcore
            refine ⟨path, rfl, ?_, hpath⟩
            simpa using h3.symm
          | cons best rest2 =>
            rw [hsort] at hcore
            dsimp only at hcore
            cases hcore
            have hbmem : best ∈ accepted := by
              have hm : best ∈ sortPaths accepted := by
                rw [hsort]
                exact List.mem_cons_self _ _
              exact (List.perm_insertionSort _ _).subset hm
            have hq := optimize_sound doc config input path accepted hopt best hbmem
            refine ⟨best, rfl, ?_, hq⟩
            simpa using h3.symm

/-- Witness for C1's amended theorem: the single `p#x` target under the
default configuration produces `#x`, which selects exactly the target. -/
theorem c1_witness :
    ∃ p : Path, generateCore exampleIdDoc [0] {} = .ok (.inr p) ∧
      "#x" = selector p ∧ queryAll exampleIdDoc p = [[0]] :=
  c1_uniqueness_identity exampleIdDoc [0] {} (mkE "p" "x") rfl (by decide) "#x" rfl

/-! Claim C3: the candidate tier chain. -/

/-- Claim C3: for every node the Candidate Generator returns a non-empty
list chosen by the strict fallback chain of the spec (restated here as the
equality with `levelBaseSpec` proved in `levelBase_eq_spec`, plus
non-emptiness). -/
theorem c3_candidate_chain (config : Options) (e : Elem) :
    levelBase config e = levelBaseSpec config e ∧ levelBase config e ≠ [] := by
  refine ⟨levelBase_eq_spec config e, ?_⟩
  rw [levelBase_eq_spec]
  unfold levelBaseSpec
  split_ifs with h1 h2 h3 h4 <;> simp_all

/-! Claim C5: resolution order within the budget. -/

theorem firstUniqueE_eq_find (doc : Elem) (l : List Path)
    (h : ∀ c ∈ l, 1 ≤ (queryAll doc c).length) :
    firstUniqueE doc l = .ok (l.find? (fun c => (queryAll doc c).length == 1)) := by
  induction l with
  | nil => rfl
  | cons c rest ih =>
    have hc := h c (List.mem_cons_self _ _)
    unfold firstUniqueE
    cases hl : (queryAll doc c).length with
    | zero => omega
    | succ n =>
      cases n with
      | zero =>
        have hu : unique doc c = .ok true := by unfold unique; rw [hl]
        rw [hu, ebind_ok]
        rw [List.find?_cons_of_pos _ (by rw [hl]; rfl)]
        rfl
      | succ m =>
        have hu : unique doc c = .ok false := by unfold unique; rw [hl]; rfl
        rw [hu, ebind_ok]
        rw [List.find?_cons_of_neg _ (by rw [hl]; simp)]
        simpa using ih (fun x hx => h x (List.mem_cons_of_mem _ hx))

/-- Claim C5: when the combination count of a stack does not exceed the
threshold, resolution sorts all combinations by ascending total penalty
with ties kept in generation order, tests them in that order against the
oracle, and returns the first combination matching exactly one node — or
no path (and no error) when none matches uniquely.  Conjuncts: the result
is the first sorted combination with match count one (`find?` returns
`none`, wrapped in `.ok`, when there is none); the sorted list is
ascending in penalty; it is a permutation of the generation order; and
equal-penalty combinations keep their generation order (the filter at
every penalty is unchanged).  The hypothesis that every combination
matches at least one node holds for every stack the search engine builds
(each combination's tokens are derived from the input's own ancestors, so
the input matches); without it the oracle would throw on a zero-match
candidate. -/
theorem c5_resolution_order (doc : Elem) (config : Options)
    (stack : List (List Node)) (fb : Option (Unit → Except String (Option Path)))
    (h1 : (sortPaths (combinations stack)).length ≤ config.threshold)
    (h2 : ∀ c ∈ combinations stack, 1 ≤ (queryAll doc c).length) :
    findUniquePath doc config stack fb =
      .ok ((sortPaths (combinations stack)).find?
        (fun c => (queryAll doc c).length == 1))
    ∧ (sortPaths (combinations stack)).Pairwise (fun a b => penalty a ≤ penalty b)
    ∧ (sortPaths (combinations stack)).Perm (combinations stack)
    ∧ ∀ k : Nat,
        (sortPaths (combinations stack)).filter (fun p => penalty p == k) =
          (combinations stack).filter (fun p => penalty p == k) := by
  haveI : IsTrans Path (fun a b => penalty a ≤ penalty b) :=
    ⟨fun _ _ _ => Nat.le_trans⟩
  haveI : IsTotal Path (fun a b => penalty a ≤ penalty b) :=
    ⟨fun a b => Nat.le_total _ _⟩
  refine ⟨?_, List.sorted_insertionSort _ _, List.perm_insertionSort _ _, ?_⟩
  · unfold findUniquePath
    rw [if_neg (by omega)]
    exact firstUniqueE_eq_find doc _
      (fun c hcmem => h2 c ((List.perm_insertionSort _ _).subset hcmem))
  · intro k
    set l := combinations stack with hl
    set s := l.filter (fun p => penalty p == k) with hs
    have hpair : s.Pairwise (fun a b => penalty a ≤ penalty b) := by
      apply List.pairwise_of_forall_mem_list
      intro a ha b hb
      have ha' := (List.mem_filter.mp ha).2
      have hb' := (List.mem_filter.mp hb).2
      have : penalty a = k := by simpa using ha'
      have : penalty b = k := by simpa using hb'
      omega
    have hsub : s.Sublist (sortPaths l) :=
      List.sublist_insertionSort hpair (List.filter_sublist l)
    have hself : s.filter (fun p => penalty p == k) = s :=
      List.filter_eq_self.mpr (fun a ha => (List.mem_filter.mp ha).2)
    have hsub2 : s.Sublist ((sortPaths l).filter (fun p => penalty p == k)) := by
      rw [← hself]
      exact hsub.filter _
    have hlen : ((sortPaths l).filter (fun p => penalty p == k)).length = s.length :=
      ((List.perm_insertionSort _ l).filter _).length_eq
    exact (hsub2.eq_of_length hlen.symm).symm

/-- Witness for C5: the seed stack for `exampleIdDoc`'s target under the
default configuration; its single combination `p` matches exactly the
target and is returned. -/
theorem c5_witness :
    findUniquePath exampleIdDoc (resolveOptions {}) [[pTagNode]] none =
      .ok ((sortPaths (combinations [[pTagNode]])).find?
        (fun c => (queryAll exampleIdDoc c).length == 1))
    ∧ (sortPaths (combinations [[pTagNode]])).Pairwise (fun a b => penalty a ≤ penalty b)
    ∧ (sortPaths (combinations [[pTagNode]])).Perm (combinations [[pTagNode]])
    ∧ ∀ k : Nat,
        (sortPaths (combinations [[pTagNode]])).filter (fun p => penalty p == k) =
          (combinations [[pTagNode]]).filter (fun p => penalty p == k) :=
  c5_resolution_order exampleIdDoc (resolveOptions {}) [[pTagNode]] none
    (by decide) (by decide)

/-! Claim C8: the selector renderer. -/

theorem selectorGo_spec (rest : List Node) :
    ∀ (node : Node) (query : String), (∀ f ∈ rest, f.level.isSome) →
      selectorGo node rest query = selectorSpecGo node rest query := by
  induction rest with
  | nil => intros; rfl
  | cons n t ih =>
    intro node query h
    obtain ⟨l, hl⟩ := Option.isSome_iff_exists.mp (h n (List.mem_cons_self _ _))
    have hcond : (node.level == some (n.level.getD 0 - 1)) = childJoin node n := by
      unfold childJoin
      rw [hl]
      cases hnode : node.level with
      | none => simp
      | some a =>
        simp only [Option.getD_some]
        rw [Bool.eq_iff_iff]
        simp only [beq_iff_eq, Option.some.injEq]
        omega
    unfold selectorGo selectorSpecGo
    simp only [hcond]
    cases hc : childJoin node n <;>
      · simp only [hc, Bool.false_eq_true, if_false, if_true, ite_false, ite_true]
        exact ih n _ (fun f hf => h f (List.mem_cons_of_mem _ hf))

/-- Claim C8: for a path whose tokens beyond index 0 all carry recorded
levels, the renderer folds from index 0 outward and joins adjacent tokens
with the child combinator exactly when the outer token's level is one more
than the inner token's, and with the descendant combinator otherwise. -/
theorem c8_renderer (node : Node) (rest : List Node)
    (h : ∀ f ∈ rest, f.level.isSome) :
    selector (node :: rest) = selectorSpecGo node rest node.name := by
  unfold selector
  exact selectorGo_spec rest node node.name h

/-- Witness for C8: levels 0, 1, 3 render as `div section > p` — child
combinator for the contiguous 0/1 pair, descendant combinator across the
1/3 gap. -/
theorem c8_witness :
    selector [renderP, renderSection, renderDiv] =
        selectorSpecGo renderP [renderSection, renderDiv] renderP.name
    ∧ selector [renderP, renderSection, renderDiv] = "div section > p" :=
  ⟨c8_renderer renderP [renderSection, renderDiv] (by decide), rfl⟩

end Finder
